import Mathlib

/-
Verification of the incremental synchronization engine of the LocalRag
repository (src/state_manager.py, src/startup_manager.py,
src/document_processor.py, src/vector_store.py, src/file_watcher.py).

The filesystem is modelled as the listing produced by os.walk: a list of
entries, each carrying the containing directory, the base name, and the
file's observable state (mtime, byte content, readability).  The SHA-256
hash, the text extractor, the text splitter, and Path.resolve are opaque
collaborators, modelled as function parameters: every theorem below is
proved for an arbitrary choice of these functions.
-/

namespace LocalRag

/-- Observable state of one on-disk file: st_mtime, the byte content
(bytes as naturals), and whether os.stat/open succeed on it. -/
structure File where
  mtime : Nat
  content : List Nat
  readable : Bool
deriving DecidableEq, Repr

/-- One record of the recursive directory walk (os.walk): the directory
part, the base name, and the file found there.  The full path is
os.path.join(dir, name). -/
structure Entry where
  dir : String
  name : String
  file : File
deriving DecidableEq, Repr

/-- os.path.join(root, file) for the walk entries. -/
def Entry.path (e : Entry) : String := e.dir ++ "/" ++ e.name

/-- A directory listing: the sequence of files yielded by os.walk. -/
abbrev FS := List Entry

/-- StateManager.known_files: the in-memory mapping file_path to
content_signature, modelled as an association list (dict semantics are
given by lookupL below). -/
abbrev Ledger := List (String × String)

/-- Dictionary lookup in the ledger (Python `d[k]` / `k in d`). -/
def lookupL (p : String) : Ledger → Option String
  | [] => none
  | (k, v) :: rest => if p = k then some v else lookupL p rest

/-- StateManager.get_content_signature, bytes that get hashed:
full content for files under 1 MiB, first 64 KiB concatenated with the
last 64 KiB otherwise (f.read(65536); f.seek(-65536, 2); f.read(65536)). -/
def sigBytes (content : List Nat) : List Nat :=
  if content.length < 1048576 then content
  else content.take 65536 ++ content.drop (content.length - 65536)

/-- The signature string built by StateManager.get_content_signature:
mtime, underscore, size, underscore, hash of sigBytes.  The hash
(hashlib.sha256 hexdigest in the source) is an opaque parameter. -/
def sigOf (hash : List Nat → String) (f : File) : String :=
  toString f.mtime ++ "_" ++ toString f.content.length ++ "_" ++ hash (sigBytes f.content)

/-- StateManager.get_content_signature: os.stat/open raise on an
unreadable file, modelled as an error result. -/
def get_content_signature (hash : List Nat → String) (f : File) : Except Unit String :=
  if f.readable then .ok (sigOf hash f) else .error ()

/-- Python str.startswith for the single char dot, on the base name
(hidden-file test in both directory walks). -/
def startsWithDot (s : String) : Bool :=
  match s.data with
  | [] => false
  | c :: _ => decide (c = '.')

/-- StateManager.is_file_changed: true if the path is absent from
known_files or the stored signature differs from the current one. -/
def is_file_changed (ledger : Ledger) (p sig : String) : Bool :=
  match lookupL p ledger with
  | none => true
  | some s => decide (s ≠ sig)

/-- StateManager.get_files_to_process: walk every entry, skip names
starting with a dot, compute the signature (an exception propagates and
aborts the whole scan -- there is no try/except in this method), and
collect the paths whose signature is changed. -/
def get_files_to_process (hash : List Nat → String) (ledger : Ledger) : FS → Except Unit (List String)
  | [] => .ok []
  | e :: rest =>
    if startsWithDot e.name then get_files_to_process hash ledger rest
    else
      match get_content_signature hash e.file with
      | .error u => .error u
      | .ok sig =>
        match get_files_to_process hash ledger rest with
        | .error u => .error u
        | .ok l => .ok (if is_file_changed ledger (Entry.path e) sig then Entry.path e :: l else l)

/-- The non-hidden files currently on disk, as collected by the walk in
StateManager.sync_and_get_deleted_files (current_files in the source). -/
def current_files (fs : FS) : List String :=
  (fs.filter (fun e => !startsWithDot e.name)).map Entry.path

/-- StateManager.sync_and_get_deleted_files: cached file paths minus the
files currently on disk. -/
def sync_and_get_deleted_files (ledger : Ledger) (fs : FS) : List String :=
  (ledger.map Prod.fst).filter (fun p => !decide (p ∈ current_files fs))

/-- StateManager.mark_file_processed: known_files[file_path] = signature
(dict update: the new binding shadows and replaces any previous one). -/
def mark_file_processed (ledger : Ledger) (p sig : String) : Ledger :=
  (p, sig) :: ledger.filter (fun q => !decide (q.1 = p))

/-- StateManager.remove_file_from_state: delete the entry if present,
no-op otherwise. -/
def remove_file_from_state (ledger : Ledger) (p : String) : Ledger :=
  ledger.filter (fun q => !decide (q.1 = p))

/-- One stored chunk of the ChromaDB collection: its id, its text, and
the source metadata field (the normalized path of the document). -/
structure Chunk where
  id : String
  content : String
  source : String
deriving DecidableEq, Repr

/-- The vector index contents: the list of stored chunks. -/
abbrev Index := List Chunk

/-- VectorStore.remove_document: delete every chunk whose source
metadata equals the normalized path (Path(file_path).resolve(), the
opaque parameter resolve). -/
def remove_document (resolve : String → String) (idx : Index) (p : String) : Index :=
  idx.filter (fun c => !decide (c.source = resolve p))

/-- VectorStore.add_document_chunks: normalize the path, remove the
existing chunks for it, then append one chunk per piece of content with
id normalizedPath, underscore, index, and source set to the normalized
path. -/
def add_document_chunks (resolve : String → String) (idx : Index) (p : String) (cs : List String) : Index :=
  remove_document resolve idx p ++
    cs.enum.map (fun ic => { id := resolve p ++ "_" ++ toString ic.1, content := ic.2, source := resolve p })

/-- The shared mutable state threaded through the pipeline: the
StateManager's known_files and the vector index contents. -/
structure PState where
  ledger : Ledger
  index : Index
deriving DecidableEq, Repr

/-- One iteration of the loop in DocumentProcessor.process_file_batch.
Any per-file exception (os.stat on a missing or unreadable file) is
caught by the try/except and leaves the state untouched; extraction
yielding empty content skips the file before any index call.  The second
component counts the calls into the vector store
(add_document_chunks/remove_document), i.e. index mutations. -/
def process_one (hash : List Nat → String) (extract : String → File → String)
    (split : String → List String) (resolve : String → String)
    (fs : FS) (st : PState) (p : String) : PState × Nat :=
  match fs.find? (fun e => decide (Entry.path e = p)) with
  | none => (st, 0)
  | some e =>
    match get_content_signature hash e.file with
    | .error _ => (st, 0)
    | .ok sig =>
      let content := extract p e.file
      if content = "" then (st, 0)
      else
        ({ ledger := mark_file_processed st.ledger p sig,
           index := add_document_chunks resolve st.index p (split content) }, 1)

/-- One step of the loop in DocumentProcessor.process_file_batch,
threading the state and accumulating the mutation count. -/
def process_step (hash : List Nat → String) (extract : String → File → String)
    (split : String → List String) (resolve : String → String)
    (fs : FS) (acc : PState × Nat) (p : String) : PState × Nat :=
  let r := process_one hash extract split resolve fs acc.1 p
  (r.1, acc.2 + r.2)

/-- DocumentProcessor.process_file_batch over a list of paths (the
sub-batching by 5 in process_changed_files_only only regroups the same
sequential per-file loop, so the net effect is this fold). -/
def process_file_batch (hash : List Nat → String) (extract : String → File → String)
    (split : String → List String) (resolve : String → String)
    (fs : FS) (st : PState) (ps : List String) : PState × Nat :=
  ps.foldl (process_step hash extract split resolve fs) (st, 0)

/-- DocumentProcessor.process_changed_files_only: scan for changed
files (an exception from the scan propagates), then process them all. -/
def process_changed_files_only (hash : List Nat → String) (extract : String → File → String)
    (split : String → List String) (resolve : String → String)
    (fs : FS) (st : PState) : Except Unit (PState × Nat) :=
  match get_files_to_process hash st.ledger fs with
  | .error u => .error u
  | .ok ps => .ok (process_file_batch hash extract split resolve fs st ps)

/-- StartupManager.cleanup_deleted_files: compute the deleted set, for
each path remove its chunks from the index and its ledger entry, then
save the ledger once -- only when the deleted set was nonempty.  Returns
the new state, the deleted set, and the list of ledger snapshots written
by save_state during the call. -/
def cleanup_deleted_files (resolve : String → String) (fs : FS) (st : PState) :
    PState × List String × List Ledger :=
  let del := sync_and_get_deleted_files st.ledger fs
  let st' := del.foldl (fun s p =>
    { ledger := remove_file_from_state s.ledger p,
      index := remove_document resolve s.index p }) st
  (st', del, if del.isEmpty then [] else [st'.ledger])

/-- Phases 3 and 4 of StartupManager.initialize_and_run: the deletion
sync followed by the processing of changed files.  The returned number
counts every vector-index mutation performed (one remove_document per
deleted file, plus the calls made by the processing loop). -/
def reconcile (hash : List Nat → String) (extract : String → File → String)
    (split : String → List String) (resolve : String → String)
    (fs : FS) (st : PState) : Except Unit (PState × Nat) :=
  let c := cleanup_deleted_files resolve fs st
  match process_changed_files_only hash extract split resolve fs c.1 with
  | .error u => .error u
  | .ok r => .ok (r.1, c.2.1.length + r.2)

/-- StateManager.load_existing_state.  The persisted signatures.json is
either absent (none), present but unparsable -- json.load raises, and no
handler catches it (some none) -- or present and parsable (some m). -/
def load_existing_state : Option (Option Ledger) → Except Unit Ledger
  | none => .ok []
  | some none => .error ()
  | some (some m) => .ok m

/-- StartupManager.initialize_and_run, phases 1, 3 and 4: load the
persisted ledger (an error propagates and aborts startup), then run the
startup reconciliation. -/
def initialize_and_run (hash : List Nat → String) (extract : String → File → String)
    (split : String → List String) (resolve : String → String)
    (persisted : Option (Option Ledger)) (fs : FS) (idx : Index) : Except Unit (PState × Nat) :=
  match load_existing_state persisted with
  | .error u => .error u
  | .ok l => reconcile hash extract split resolve fs { ledger := l, index := idx }

/-- config.SUPPORTED_EXTENSIONS. -/
def SUPPORTED_EXTENSIONS : List String := [".pdf", ".docx", ".txt", ".md", ".html", ".csv", ".json"]

/-- str.lower for ASCII strings (the source lowercases the suffix). -/
def strLower (s : String) : String := String.mk (s.data.map Char.toLower)

/-- pathlib.Path(p).suffix: the extension of the final path component,
empty unless the last dot of the name sits strictly between the first
and the last character. -/
def pySuffix (p : String) : String :=
  let cs := (p.data.reverse.takeWhile (fun c => !decide (c = '/'))).reverse
  let after := cs.reverse.takeWhile (fun c => !decide (c = '.'))
  if after.length < cs.length ∧ 0 < cs.length - 1 - after.length ∧ 0 < after.length
  then String.mk ('.' :: after.reverse) else ""

/-- A filesystem event kind delivered by watchdog. -/
inductive EventType
  | created
  | modified
  | deleted
deriving DecidableEq, Repr

/-- State visible to DocumentEventHandler: the is_processing flag, the
shared in-memory ledger and index, and the content of the persisted
signatures.json on disk (none when the file does not exist). -/
structure WState where
  processing : Bool
  ledger : Ledger
  index : Index
  persisted : Option Ledger
deriving DecidableEq, Repr

/-- DocumentEventHandler._handle_event, run to completion (the finally
block restores is_processing, so the flag ends as it started when the
handler was entered idle).  Returns the resulting state, whether the
skip warning was logged, and the number of vector-index mutation calls
dispatched.  When is_processing is set -- which in the source stays true
through both the processing work and the cooldown sleep -- the event is
dropped unchanged with a warning.  An event whose lowercased suffix is
not a supported extension returns before any mutation and without a
warning.  Created/modified events run process_file_batch on the single
path; deleted events call remove_document and remove_file_from_state.
No branch ever calls save_state, so persisted is never written. -/
def handle_event (hash : List Nat → String) (extract : String → File → String)
    (split : String → List String) (resolve : String → String)
    (fs : FS) (st : WState) (p : String) (ev : EventType) : WState × Bool × Nat :=
  if st.processing then (st, true, 0)
  else
    if strLower (pySuffix p) ∈ SUPPORTED_EXTENSIONS then
      match ev with
      | .created | .modified =>
        let r := process_file_batch hash extract split resolve fs { ledger := st.ledger, index := st.index } [p]
        ({ st with ledger := r.1.ledger, index := r.1.index }, false, r.2)
      | .deleted =>
        ({ st with index := remove_document resolve st.index p,
                   ledger := remove_file_from_state st.ledger p }, false, 1)
    else (st, false, 0)

/- Helper lemmas on the ledger dictionary. -/

theorem lookupL_filter_ne (l : Ledger) (p q : String) :
    lookupL q (l.filter (fun r => !decide (r.1 = p))) = if q = p then none else lookupL q l := by
  induction l with
  | nil => by_cases h : q = p <;> simp [lookupL, h]
  | cons r t ih =>
    obtain ⟨k, v⟩ := r
    by_cases hkp : k = p
    · subst hkp
      by_cases hqk : q = k
      · subst hqk
        simp [List.filter_cons, lookupL, ih]
      · simp [List.filter_cons, lookupL, hqk, ih]
    · by_cases hqk : q = k
      · subst hqk
        simp [List.filter_cons, lookupL, hkp]
      · simp [List.filter_cons, lookupL, hkp, hqk, ih]

theorem lookupL_mark (l : Ledger) (p s q : String) :
    lookupL q (mark_file_processed l p s) = if q = p then some s else lookupL q l := by
  by_cases h : q = p <;>
    simp [mark_file_processed, lookupL, h, lookupL_filter_ne]

theorem lookupL_remove (l : Ledger) (p q : String) :
    lookupL q (remove_file_from_state l p) = if q = p then none else lookupL q l :=
  lookupL_filter_ne l p q

theorem mem_mark (l : Ledger) (p s : String) (r : String × String)
    (h : r ∈ mark_file_processed l p s) : r = (p, s) ∨ r ∈ l := by
  rcases List.mem_cons.mp h with h1 | h1
  · exact Or.inl h1
  · exact Or.inr (List.mem_filter.mp h1).1

theorem mem_remove (l : Ledger) (p : String) (r : String × String)
    (h : r ∈ remove_file_from_state l p) : r ∈ l ∧ r.1 ≠ p := by
  have h2 := List.mem_filter.mp h
  exact ⟨h2.1, by simpa using h2.2⟩

theorem lookupL_foldl_remove (del : List String) (l : Ledger) (q : String) :
    lookupL q (del.foldl remove_file_from_state l) = if q ∈ del then none else lookupL q l := by
  induction del generalizing l with
  | nil => simp
  | cons d ds ih =>
    by_cases hq : q = d
    · subst hq
      simp [List.foldl_cons, ih, lookupL_remove]
    · by_cases hm : q ∈ ds <;> simp [List.foldl_cons, ih, lookupL_remove, hq, hm]

theorem mem_foldl_remove (del : List String) (l : Ledger) (r : String × String)
    (h : r ∈ del.foldl remove_file_from_state l) : r ∈ l ∧ r.1 ∉ del := by
  induction del generalizing l with
  | nil => simpa using h
  | cons d ds ih =>
    have h2 := ih (remove_file_from_state l d) h
    have h3 := mem_remove l d r h2.1
    refine ⟨h3.1, ?_⟩
    simp only [List.mem_cons]
    rintro (hd | hm)
    · exact h3.2 hd
    · exact h2.2 hm

theorem mem_foldl_remove_document (resolve : String → String) (del : List String)
    (idx : Index) (c : Chunk)
    (h : c ∈ del.foldl (remove_document resolve) idx) :
    c ∈ idx ∧ ∀ p ∈ del, c.source ≠ resolve p := by
  induction del generalizing idx with
  | nil => simpa using h
  | cons d ds ih =>
    have h2 := ih (remove_document resolve idx d) h
    have h3 := List.mem_filter.mp h2.1
    refine ⟨h3.1, ?_⟩
    intro p hp
    rcases List.mem_cons.mp hp with hd | hm
    · subst hd; simpa using h3.2
    · exact h2.2 p hm

theorem mem_sync (ledger : Ledger) (fs : FS) (p : String) :
    p ∈ sync_and_get_deleted_files ledger fs ↔
      p ∈ ledger.map Prod.fst ∧ p ∉ current_files fs := by
  simp [sync_and_get_deleted_files, List.mem_filter]

theorem sync_nil (ledger : Ledger) (fs : FS)
    (h : ∀ r ∈ ledger, r.1 ∈ current_files fs) :
    sync_and_get_deleted_files ledger fs = [] := by
  refine List.filter_eq_nil_iff.mpr ?_
  intro p hp
  simp only [List.mem_map] at hp
  obtain ⟨r, hr, hrp⟩ := hp
  simp [← hrp, h r hr]

/- Helper lemmas on the changed-file scan. -/

/-- The paths collected by a successful run of get_files_to_process:
non-hidden entries whose current signature is changed. -/
def changedPaths (hash : List Nat → String) (ledger : Ledger) (fs : FS) : List String :=
  (fs.filter (fun e =>
    !startsWithDot e.name && is_file_changed ledger (Entry.path e) (sigOf hash e.file))).map Entry.path

theorem get_files_ok (hash : List Nat → String) (ledger : Ledger) (fs : FS)
    (hr : ∀ e ∈ fs, e.file.readable = true) :
    get_files_to_process hash ledger fs = .ok (changedPaths hash ledger fs) := by
  induction fs with
  | nil => simp [get_files_to_process, changedPaths]
  | cons e rest ih =>
    have hre : e.file.readable = true := hr e (List.mem_cons_self e rest)
    have hrest : ∀ e2 ∈ rest, e2.file.readable = true := fun e2 h2 => hr e2 (List.mem_cons_of_mem e h2)
    by_cases hh : startsWithDot e.name
    · simp [get_files_to_process, changedPaths, List.filter_cons, hh, ih hrest]
    · by_cases hc : is_file_changed ledger (Entry.path e) (sigOf hash e.file) <;>
        simp [get_files_to_process, changedPaths, List.filter_cons, hh, hc,
          get_content_signature, hre, ih hrest, changedPaths]

theorem mem_changedPaths (hash : List Nat → String) (ledger : Ledger) (fs : FS) (p : String) :
    p ∈ changedPaths hash ledger fs ↔
      ∃ e ∈ fs, startsWithDot e.name = false ∧
        is_file_changed ledger (Entry.path e) (sigOf hash e.file) = true ∧
        Entry.path e = p := by
  simp [changedPaths, List.mem_map, List.mem_filter, and_assoc]

theorem changed_iff (ledger : Ledger) (p sig : String) :
    is_file_changed ledger p sig = true ↔ lookupL p ledger ≠ some sig := by
  unfold is_file_changed
  cases h : lookupL p ledger with
  | none => simp [h]
  | some s => simp [h]

theorem changedPaths_nodup (hash : List Nat → String) (ledger : Ledger) (fs : FS)
    (hnd : (fs.map Entry.path).Nodup) : (changedPaths hash ledger fs).Nodup :=
  hnd.sublist ((List.filter_sublist fs).map Entry.path)

theorem changedPaths_subset_current (hash : List Nat → String) (ledger : Ledger) (fs : FS)
    (p : String) (hp : p ∈ changedPaths hash ledger fs) : p ∈ current_files fs := by
  obtain ⟨e, he, hh, _, hpe⟩ := (mem_changedPaths hash ledger fs p).mp hp
  subst hpe
  simp only [current_files, List.mem_map]
  exact ⟨e, List.mem_filter.mpr ⟨he, by simp [hh]⟩, rfl⟩

theorem find_entry (fs : FS) (e : Entry) (hnd : (fs.map Entry.path).Nodup) (he : e ∈ fs) :
    fs.find? (fun e2 => decide (Entry.path e2 = Entry.path e)) = some e := by
  induction fs with
  | nil => cases he
  | cons f rest ih =>
    rcases List.mem_cons.mp he with rfl | hmem
    · simp [List.find?_cons]
    · by_cases hfe : Entry.path f = Entry.path e
      · exfalso
        have : Entry.path e ∈ rest.map Entry.path := List.mem_map.mpr ⟨e, hmem, rfl⟩
        have hnotin := (List.nodup_cons.mp hnd).1
        exact hnotin (hfe ▸ this)
      · have := ih (List.nodup_cons.mp hnd).2 hmem
        simp [List.find?_cons, hfe, this]

/- Helper lemmas on the processing loop. -/

section Processing

variable (hash : List Nat → String) (extract : String → File → String)
  (split : String → List String) (resolve : String → String) (fs : FS)

theorem process_one_none (st : PState) (p : String)
    (hf : fs.find? (fun e => decide (Entry.path e = p)) = none) :
    process_one hash extract split resolve fs st p = (st, 0) := by
  unfold process_one
  rw [hf]

theorem process_one_unreadable (st : PState) (p : String) (e : Entry)
    (hf : fs.find? (fun e2 => decide (Entry.path e2 = p)) = some e)
    (hr : e.file.readable = false) :
    process_one hash extract split resolve fs st p = (st, 0) := by
  unfold process_one
  rw [hf]
  simp [get_content_signature, hr]

theorem process_one_empty (st : PState) (p : String) (e : Entry)
    (hf : fs.find? (fun e2 => decide (Entry.path e2 = p)) = some e)
    (hx : extract p e.file = "") :
    process_one hash extract split resolve fs st p = (st, 0) := by
  unfold process_one
  rw [hf]
  cases hr : e.file.readable <;> simp [get_content_signature, hr, hx]

theorem process_one_mark (st : PState) (p : String) (e : Entry)
    (hf : fs.find? (fun e2 => decide (Entry.path e2 = p)) = some e)
    (hr : e.file.readable = true) (hx : extract p e.file ≠ "") :
    process_one hash extract split resolve fs st p =
      ({ ledger := mark_file_processed st.ledger p (sigOf hash e.file),
         index := add_document_chunks resolve st.index p (split (extract p e.file)) }, 1) := by
  unfold process_one
  rw [hf]
  simp [get_content_signature, hr, hx]

theorem process_one_ledger_ne (st : PState) (p q : String) (hq : q ≠ p) :
    lookupL q ((process_one hash extract split resolve fs st p).1.ledger) = lookupL q st.ledger := by
  unfold process_one
  cases hf : fs.find? (fun e => decide (Entry.path e = p)) with
  | none => rfl
  | some e =>
    cases hs : get_content_signature hash e.file with
    | error u => simp [hs]
    | ok sig =>
      by_cases hx : extract p e.file = "" <;> simp [hs, hx, lookupL_mark, hq]

theorem process_one_mem_ledger (st : PState) (p : String) (r : String × String)
    (h : r ∈ (process_one hash extract split resolve fs st p).1.ledger) :
    r ∈ st.ledger ∨ r.1 = p := by
  revert h
  unfold process_one
  cases hf : fs.find? (fun e => decide (Entry.path e = p)) with
  | none => exact fun h => Or.inl h
  | some e =>
    cases hs : get_content_signature hash e.file with
    | error u =>
      simp only [hs]
      exact fun h => Or.inl h
    | ok sig =>
      simp only [hs]
      by_cases hx : extract p e.file = ""
      · simp only [hx]
        simp
        exact fun h => Or.inl h
      · simp only [hx]
        simp [hx]
        intro h
        rcases mem_mark _ _ _ _ h with h1 | h1
        · exact Or.inr (by rw [h1])
        · exact Or.inl h1

theorem batch_nil (st : PState) :
    process_file_batch hash extract split resolve fs st [] = (st, 0) := rfl

theorem batch_shift (ps : List String) (st : PState) (n : Nat) :
    ps.foldl (process_step hash extract split resolve fs) (st, n)
      = ((process_file_batch hash extract split resolve fs st ps).1,
         n + (process_file_batch hash extract split resolve fs st ps).2) := by
  induction ps generalizing st n with
  | nil => simp [process_file_batch]
  | cons p ps ih =>
    simp only [process_file_batch, List.foldl_cons] at *
    rw [show process_step hash extract split resolve fs (st, n) p
          = ((process_one hash extract split resolve fs st p).1,
             n + (process_one hash extract split resolve fs st p).2) from rfl,
        show process_step hash extract split resolve fs (st, 0) p
          = ((process_one hash extract split resolve fs st p).1,
             0 + (process_one hash extract split resolve fs st p).2) from rfl,
        Nat.zero_add,
        ih (process_one hash extract split resolve fs st p).1
           (n + (process_one hash extract split resolve fs st p).2),
        ih (process_one hash extract split resolve fs st p).1
           (process_one hash extract split resolve fs st p).2]
    simp [Nat.add_assoc]

theorem batch_cons (st : PState) (p : String) (ps : List String) :
    process_file_batch hash extract split resolve fs st (p :: ps)
      = ((process_file_batch hash extract split resolve fs
            (process_one hash extract split resolve fs st p).1 ps).1,
         (process_one hash extract split resolve fs st p).2
           + (process_file_batch hash extract split resolve fs
                (process_one hash extract split resolve fs st p).1 ps).2) := by
  show (p :: ps).foldl (process_step hash extract split resolve fs) (st, 0) = _
  rw [List.foldl_cons,
      show process_step hash extract split resolve fs (st, 0) p
        = ((process_one hash extract split resolve fs st p).1,
           0 + (process_one hash extract split resolve fs st p).2) from rfl,
      batch_shift]
  simp

theorem batch_ledger_ne (ps : List String) (st : PState) (q : String) (hq : q ∉ ps) :
    lookupL q ((process_file_batch hash extract split resolve fs st ps).1.ledger)
      = lookupL q st.ledger := by
  induction ps generalizing st with
  | nil => rfl
  | cons p ps ih =>
    rw [batch_cons]
    have hqp : q ≠ p := fun h => hq (h ▸ List.mem_cons_self p ps)
    have hqs : q ∉ ps := fun h => hq (List.mem_cons_of_mem p h)
    rw [ih _ hqs, process_one_ledger_ne hash extract split resolve fs st p q hqp]

theorem batch_marked (ps : List String) (st : PState) (p : String) (e : Entry)
    (hnd : ps.Nodup) (hp : p ∈ ps)
    (hf : fs.find? (fun e2 => decide (Entry.path e2 = p)) = some e)
    (hr : e.file.readable = true) (hx : extract p e.file ≠ "") :
    lookupL p ((process_file_batch hash extract split resolve fs st ps).1.ledger)
      = some (sigOf hash e.file) := by
  induction ps generalizing st with
  | nil => cases hp
  | cons q qs ih =>
    rw [batch_cons]
    rcases List.mem_cons.mp hp with rfl | hmem
    · have hnot : p ∉ qs := (List.nodup_cons.mp hnd).1
      rw [batch_ledger_ne hash extract split resolve fs qs _ p hnot,
          process_one_mark hash extract split resolve fs st p e hf hr hx]
      simp [lookupL_mark]
    · exact ih _ (List.nodup_cons.mp hnd).2 hmem

theorem batch_mem_ledger (ps : List String) (st : PState) (r : String × String)
    (h : r ∈ (process_file_batch hash extract split resolve fs st ps).1.ledger) :
    r ∈ st.ledger ∨ r.1 ∈ ps := by
  induction ps generalizing st with
  | nil => exact Or.inl h
  | cons p ps ih =>
    rw [batch_cons] at h
    rcases ih _ h with h1 | h1
    · rcases process_one_mem_ledger hash extract split resolve fs st p r h1 with h2 | h2
      · exact Or.inl h2
      · exact Or.inr (by simp [h2])
    · exact Or.inr (List.mem_cons_of_mem p h1)

theorem batch_all_skip (ps : List String) (st : PState)
    (h : ∀ p ∈ ps, ∀ s : PState, process_one hash extract split resolve fs s p = (s, 0)) :
    process_file_batch hash extract split resolve fs st ps = (st, 0) := by
  induction ps generalizing st with
  | nil => rfl
  | cons p ps ih =>
    rw [batch_cons, h p (List.mem_cons_self p ps) st]
    have ih2 := ih st (fun q hq s => h q (List.mem_cons_of_mem p hq) s)
    simp [ih2]

end Processing

/- Helper lemmas on the deletion sync. -/

theorem cleanup_fold_ledger (resolve : String → String) (del : List String) (st : PState) :
    (del.foldl (fun s p =>
      { ledger := remove_file_from_state s.ledger p,
        index := remove_document resolve s.index p }) st).ledger
      = del.foldl remove_file_from_state st.ledger := by
  induction del generalizing st with
  | nil => rfl
  | cons d ds ih => simp [List.foldl_cons, ih]

theorem cleanup_fold_index (resolve : String → String) (del : List String) (st : PState) :
    (del.foldl (fun s p =>
      { ledger := remove_file_from_state s.ledger p,
        index := remove_document resolve s.index p }) st).index
      = del.foldl (remove_document resolve) st.index := by
  induction del generalizing st with
  | nil => rfl
  | cons d ds ih => simp [List.foldl_cons, ih]

theorem cleanup_del (resolve : String → String) (fs : FS) (st : PState) :
    (cleanup_deleted_files resolve fs st).2.1 = sync_and_get_deleted_files st.ledger fs := rfl

theorem cleanup_ledger (resolve : String → String) (fs : FS) (st : PState) :
    (cleanup_deleted_files resolve fs st).1.ledger
      = (sync_and_get_deleted_files st.ledger fs).foldl remove_file_from_state st.ledger :=
  cleanup_fold_ledger resolve _ st

theorem cleanup_index (resolve : String → String) (fs : FS) (st : PState) :
    (cleanup_deleted_files resolve fs st).1.index
      = (sync_and_get_deleted_files st.ledger fs).foldl (remove_document resolve) st.index :=
  cleanup_fold_index resolve _ st

theorem not_changed_lookup (ledger : Ledger) (p sig : String)
    (h : is_file_changed ledger p sig = false) : lookupL p ledger = some sig := by
  revert h
  unfold is_file_changed
  cases hlk : lookupL p ledger with
  | none => simp
  | some s => simp

/-- C4: for every readable file, get_content_signature returns the
string mtime, underscore, size, underscore, hexhash, where the hashed
bytes are the full content when the size is below 1 MiB and the first
64 KiB concatenated with the last 64 KiB otherwise; and the fingerprint
is identical across two reads of an unmodified file, in both branches. -/
theorem C4_fingerprint_format_and_stability (hash : List Nat → String) (f : File)
    (hr : f.readable = true) :
    get_content_signature hash f =
      .ok (toString f.mtime ++ "_" ++ toString f.content.length ++ "_" ++
        hash (if f.content.length < 1048576 then f.content
              else f.content.take 65536 ++ f.content.drop (f.content.length - 65536)))
    ∧ ∀ f2 : File, f2.mtime = f.mtime → f2.content = f.content → f2.readable = true →
        get_content_signature hash f2 = get_content_signature hash f := by
  constructor
  · simp [get_content_signature, hr, sigOf, sigBytes]
  · intro f2 hm hc hr2
    simp [get_content_signature, hr, hr2, sigOf, sigBytes, hm, hc]

theorem C4_fingerprint_witness :
    get_content_signature (fun _ => "0") ⟨3, [7], true⟩ = .ok ("3_1_0") := by
  have h := (C4_fingerprint_format_and_stability (fun _ => "0") ⟨3, [7], true⟩ rfl).1
  rw [h]
  rfl

/-- C6: loading the ledger yields the empty mapping without error when
the persisted file is missing, loads the stored mapping when it parses,
and fails fatally at startup -- initialize_and_run propagates the parse
error -- when the file is present but unparsable. -/
theorem C6_ledger_load_policy :
    load_existing_state none = .ok []
    ∧ (∀ m : Ledger, load_existing_state (some (some m)) = .ok m)
    ∧ (∀ (hash : List Nat → String) (extract : String → File → String)
        (split : String → List String) (resolve : String → String) (fs : FS) (idx : Index),
        initialize_and_run hash extract split resolve (some none) fs idx = .error ())
    ∧ (∀ (hash : List Nat → String) (extract : String → File → String)
        (split : String → List String) (resolve : String → String) (fs : FS) (idx : Index),
        initialize_and_run hash extract split resolve none fs idx
          = reconcile hash extract split resolve fs { ledger := [], index := idx }) :=
  ⟨rfl, fun _ => rfl, fun _ _ _ _ _ _ => rfl, fun _ _ _ _ _ _ => rfl⟩

/-- C9: an event arriving while the watcher is processing or cooling
down (is_processing still set) is dropped with a warning and mutates
nothing; an event whose lowercased extension is outside the supported
set is ignored silently, with no warning and no mutation. -/
theorem C9_watcher_drop_and_filter (hash : List Nat → String)
    (extract : String → File → String) (split : String → List String)
    (resolve : String → String) (fs : FS) (st : WState) (p : String) (ev : EventType) :
    (st.processing = true →
      handle_event hash extract split resolve fs st p ev = (st, true, 0))
    ∧ (st.processing = false → strLower (pySuffix p) ∉ SUPPORTED_EXTENSIONS →
      handle_event hash extract split resolve fs st p ev = (st, false, 0)) := by
  constructor
  · intro h
    simp [handle_event, h]
  · intro h hs
    simp [handle_event, h, hs]

theorem C9_watcher_witness :
    handle_event (fun _ => "h") (fun _ _ => "t") (fun s => [s]) id []
        ⟨true, [], [], none⟩ "d/a.txt" .modified = (⟨true, [], [], none⟩, true, 0)
    ∧ handle_event (fun _ => "h") (fun _ _ => "t") (fun s => [s]) id []
        ⟨false, [], [], none⟩ "d/a.exe" .modified = (⟨false, [], [], none⟩, false, 0) :=
  ⟨(C9_watcher_drop_and_filter (fun _ => "h") (fun _ _ => "t") (fun s => [s]) id []
      ⟨true, [], [], none⟩ "d/a.txt" .modified).1 rfl,
   (C9_watcher_drop_and_filter (fun _ => "h") (fun _ _ => "t") (fun s => [s]) id []
      ⟨false, [], [], none⟩ "d/a.exe" .modified).2 rfl (by decide)⟩

/-- C10: a watcher delete event removes the path from the vector index
and the in-memory ledger but never writes the persisted ledger file,
which stays exactly as it was. -/
theorem C10_delete_event_not_persisted (hash : List Nat → String)
    (extract : String → File → String) (split : String → List String)
    (resolve : String → String) (fs : FS) (st : WState) (p : String)
    (h : st.processing = false) (hs : strLower (pySuffix p) ∈ SUPPORTED_EXTENSIONS) :
    handle_event hash extract split resolve fs st p .deleted
      = ({ st with ledger := remove_file_from_state st.ledger p,
                   index := remove_document resolve st.index p }, false, 1)
    ∧ (handle_event hash extract split resolve fs st p .deleted).1.persisted = st.persisted
    ∧ lookupL p (handle_event hash extract split resolve fs st p .deleted).1.ledger = none := by
  have he : handle_event hash extract split resolve fs st p .deleted
      = ({ st with ledger := remove_file_from_state st.ledger p,
                   index := remove_document resolve st.index p }, false, 1) := by
    simp [handle_event, h, hs]
  refine ⟨he, by rw [he], ?_⟩
  rw [he]
  simp [lookupL_remove]

theorem C10_delete_event_witness :
    (handle_event (fun _ => "h") (fun _ _ => "t") (fun s => [s]) id []
        ⟨false, [("d/a.txt", "s")], [⟨"x", "c", "d/a.txt"⟩], some [("d/a.txt", "s")]⟩
        "d/a.txt" .deleted).1.persisted = some [("d/a.txt", "s")]
    ∧ lookupL "d/a.txt" (handle_event (fun _ => "h") (fun _ _ => "t") (fun s => [s]) id []
        ⟨false, [("d/a.txt", "s")], [⟨"x", "c", "d/a.txt"⟩], some [("d/a.txt", "s")]⟩
        "d/a.txt" .deleted).1.ledger = none :=
  ⟨(C10_delete_event_not_persisted (fun _ => "h") (fun _ _ => "t") (fun s => [s]) id []
      ⟨false, [("d/a.txt", "s")], [⟨"x", "c", "d/a.txt"⟩], some [("d/a.txt", "s")]⟩
      "d/a.txt" rfl (by decide)).2.1,
   (C10_delete_event_not_persisted (fun _ => "h") (fun _ _ => "t") (fun s => [s]) id []
      ⟨false, [("d/a.txt", "s")], [⟨"x", "c", "d/a.txt"⟩], some [("d/a.txt", "s")]⟩
      "d/a.txt" rfl (by decide)).2.2⟩

/-- Follows the spec wording of getFilesToProcess, for comparison with
the source: walk the directory recursively, skip hidden files AND files
whose extension is not in the supported set, and return the changed
paths among the rest.  The source function has no extension filter. -/
def spec_files_to_process (hash : List Nat → String) (ledger : Ledger) : FS → Except Unit (List String)
  | [] => .ok []
  | e :: rest =>
    if startsWithDot e.name ∨ strLower (pySuffix e.name) ∉ SUPPORTED_EXTENSIONS then
      spec_files_to_process hash ledger rest
    else
      match get_content_signature hash e.file with
      | .error u => .error u
      | .ok sig =>
        match spec_files_to_process hash ledger rest with
        | .error u => .error u
        | .ok l => .ok (if is_file_changed ledger (Entry.path e) sig then Entry.path e :: l else l)

/-- C1 (counterexample): the scan returns a non-hidden changed file
whose extension is NOT in the supported set, so the claimed extension
filtering does not happen; the spec-worded scan excludes it. -/
theorem C1_no_extension_filter_counterexample :
    get_files_to_process (fun _ => "h") [] [⟨"d", "doc.xyz", ⟨0, [1], true⟩⟩]
      = .ok ["d/doc.xyz"]
    ∧ strLower (pySuffix "doc.xyz") ∉ SUPPORTED_EXTENSIONS
    ∧ spec_files_to_process (fun _ => "h") [] [⟨"d", "doc.xyz", ⟨0, [1], true⟩⟩]
      = .ok [] := by
  refine ⟨rfl, by decide, ?_⟩
  have h : (startsWithDot "doc.xyz" ∨ strLower (pySuffix "doc.xyz") ∉ SUPPORTED_EXTENSIONS) := by decide
  simp [spec_files_to_process, h]

/-- C1 (amended): getFilesToProcess walks the directory and returns
exactly the set of non-hidden files whose fingerprint is changed --
absent from the ledger or stored with a different signature -- with no
filtering by extension. -/
theorem C1_files_to_process_amended (hash : List Nat → String) (ledger : Ledger) (fs : FS)
    (hr : ∀ e ∈ fs, e.file.readable = true) :
    ∃ l, get_files_to_process hash ledger fs = .ok l ∧
      ∀ p, p ∈ l ↔ ∃ e ∈ fs, startsWithDot e.name = false ∧ Entry.path e = p ∧
        lookupL p ledger ≠ some (sigOf hash e.file) := by
  refine ⟨changedPaths hash ledger fs, get_files_ok hash ledger fs hr, ?_⟩
  intro p
  rw [mem_changedPaths]
  constructor
  · rintro ⟨e, he, hh, hc, hpe⟩
    refine ⟨e, he, hh, hpe, ?_⟩
    rw [← hpe]
    exact (changed_iff ledger _ _).mp hc
  · rintro ⟨e, he, hh, hpe, hne⟩
    refine ⟨e, he, hh, (changed_iff ledger _ _).mpr ?_, hpe⟩
    rw [hpe]
    exact hne

theorem C1_files_to_process_witness :
    (∀ e ∈ ([⟨"d", "a.txt", ⟨0, [1], true⟩⟩] : FS), e.file.readable = true)
    ∧ ∃ l, get_files_to_process (fun _ => "h") [] [⟨"d", "a.txt", ⟨0, [1], true⟩⟩] = .ok l ∧
        ∀ p, p ∈ l ↔ ∃ e ∈ ([⟨"d", "a.txt", ⟨0, [1], true⟩⟩] : FS),
          startsWithDot e.name = false ∧ Entry.path e = p ∧
          lookupL p [] ≠ some (sigOf (fun _ => "h") e.file) :=
  ⟨by decide,
   C1_files_to_process_amended (fun _ => "h") [] [⟨"d", "a.txt", ⟨0, [1], true⟩⟩] (by decide)⟩

/-- C7 (counterexample): with one unreadable file in the directory, the
scan raises instead of skipping it -- get_files_to_process has no
try/except, so the IOError aborts the whole batch scan and no remaining
file is returned. -/
theorem C7_scan_error_counterexample :
    get_files_to_process (fun _ => "h") []
        [⟨"d", "bad.txt", ⟨0, [1], false⟩⟩, ⟨"d", "good.txt", ⟨0, [2], true⟩⟩]
      = .error ()
    ∧ ¬∃ l, get_files_to_process (fun _ => "h") []
        [⟨"d", "bad.txt", ⟨0, [1], false⟩⟩, ⟨"d", "good.txt", ⟨0, [2], true⟩⟩] = .ok l := by
  refine ⟨rfl, ?_⟩
  rintro ⟨l, hl⟩
  have he : get_files_to_process (fun _ => "h") []
      [⟨"d", "bad.txt", ⟨0, [1], false⟩⟩, ⟨"d", "good.txt", ⟨0, [2], true⟩⟩]
      = .error () := rfl
  rw [he] at hl
  exact Except.noConfusion hl

/-- C7 (amended): an unreadable non-hidden file makes the whole
get_files_to_process scan fail with the IOError (the batch scan is
aborted, not continued); only the per-file loop of process_file_batch
swallows the error, skips the file and continues with the rest. -/
theorem C7_error_propagation_amended :
    (∀ (hash : List Nat → String) (ledger : Ledger) (fs : FS),
      (∃ e ∈ fs, startsWithDot e.name = false ∧ e.file.readable = false) →
      get_files_to_process hash ledger fs = .error ())
    ∧ (∀ (hash : List Nat → String) (extract : String → File → String)
        (split : String → List String) (resolve : String → String)
        (fs : FS) (st : PState) (p : String) (ps : List String),
        (∀ e ∈ fs, Entry.path e = p → e.file.readable = false) →
        process_file_batch hash extract split resolve fs st (p :: ps)
          = process_file_batch hash extract split resolve fs st ps) := by
  constructor
  · intro hash ledger fs h
    induction fs with
    | nil => obtain ⟨e, he, _⟩ := h; cases he
    | cons e rest ih =>
      obtain ⟨e2, he2, hh2, hr2⟩ := h
      rcases List.mem_cons.mp he2 with rfl | hmem
      · simp [get_files_to_process, hh2, get_content_signature, hr2]
      · by_cases hh : startsWithDot e.name
        · simp [get_files_to_process, hh, ih ⟨e2, hmem, hh2, hr2⟩]
        · cases hre : e.file.readable
          · simp [get_files_to_process, hh, get_content_signature, hre]
          · simp [get_files_to_process, hh, get_content_signature, hre,
              ih ⟨e2, hmem, hh2, hr2⟩]
  · intro hash extract split resolve fs st p ps h
    have hone : process_one hash extract split resolve fs st p = (st, 0) := by
      cases hf : fs.find? (fun e => decide (Entry.path e = p)) with
      | none => exact process_one_none hash extract split resolve fs st p hf
      | some e =>
        have hmem := List.mem_of_find?_eq_some hf
        have hpe : Entry.path e = p := by
          have := List.find?_some hf
          simpa using this
        exact process_one_unreadable hash extract split resolve fs st p e hf (h e hmem hpe)
    rw [batch_cons, hone]
    simp

theorem C7_error_propagation_witness :
    (∃ e ∈ ([⟨"d", "bad.txt", ⟨0, [1], false⟩⟩] : FS),
      startsWithDot e.name = false ∧ e.file.readable = false)
    ∧ get_files_to_process (fun _ => "h") [] [⟨"d", "bad.txt", ⟨0, [1], false⟩⟩] = .error ()
    ∧ process_file_batch (fun _ => "h") (fun _ _ => "t") (fun s => [s]) id
        [⟨"d", "bad.txt", ⟨0, [1], false⟩⟩] ⟨[], []⟩ ["d/bad.txt"]
      = process_file_batch (fun _ => "h") (fun _ _ => "t") (fun s => [s]) id
        [⟨"d", "bad.txt", ⟨0, [1], false⟩⟩] ⟨[], []⟩ [] :=
  ⟨by decide,
   C7_error_propagation_amended.1 (fun _ => "h") [] [⟨"d", "bad.txt", ⟨0, [1], false⟩⟩]
     ⟨⟨"d", "bad.txt", ⟨0, [1], false⟩⟩, by decide, by decide, rfl⟩,
   C7_error_propagation_amended.2 (fun _ => "h") (fun _ _ => "t") (fun s => [s]) id
     [⟨"d", "bad.txt", ⟨0, [1], false⟩⟩] ⟨[], []⟩ "d/bad.txt" [] (by decide)⟩

/-- C8: the index upsert deletes every existing chunk for the
normalized path before inserting, each inserted chunk gets the
deterministic id normalizedPath, underscore, index; afterwards the
chunks stored under that path are exactly the new ones -- their count
equals the new chunk count and any chunk searchable under the path is
one of the new chunks, so stale content is gone. -/
theorem C8_upsert_in_place (resolve : String → String) (idx : Index) (p : String) (cs : List String) :
    ((add_document_chunks resolve idx p cs).filter (fun c => decide (c.source = resolve p))
      = cs.enum.map (fun ic =>
          { id := resolve p ++ "_" ++ toString ic.1, content := ic.2, source := resolve p }))
    ∧ ((add_document_chunks resolve idx p cs).filter
        (fun c => decide (c.source = resolve p))).length = cs.length
    ∧ ∀ c ∈ add_document_chunks resolve idx p cs, c.source = resolve p →
        c ∈ cs.enum.map (fun ic =>
          ({ id := resolve p ++ "_" ++ toString ic.1, content := ic.2, source := resolve p } : Chunk)) := by
  have hold : (remove_document resolve idx p).filter
      (fun c => decide (c.source = resolve p)) = [] := by
    refine List.filter_eq_nil_iff.mpr ?_
    intro c hc
    have h2 := (List.mem_filter.mp hc).2
    simp at h2
    simp [h2]
  have hnew : (cs.enum.map (fun ic =>
      ({ id := resolve p ++ "_" ++ toString ic.1, content := ic.2, source := resolve p } : Chunk))).filter
      (fun c => decide (c.source = resolve p))
      = cs.enum.map (fun ic =>
        ({ id := resolve p ++ "_" ++ toString ic.1, content := ic.2, source := resolve p } : Chunk)) := by
    refine List.filter_eq_self.mpr ?_
    intro c hc
    obtain ⟨ic, _, hic⟩ := List.mem_map.mp hc
    simp [← hic]
  have hmain : (add_document_chunks resolve idx p cs).filter
      (fun c => decide (c.source = resolve p))
      = cs.enum.map (fun ic =>
        ({ id := resolve p ++ "_" ++ toString ic.1, content := ic.2, source := resolve p } : Chunk)) := by
    rw [add_document_chunks, List.filter_append, hold, hnew, List.nil_append]
  refine ⟨hmain, by rw [hmain]; simp, ?_⟩
  intro c hc hsrc
  have : c ∈ (add_document_chunks resolve idx p cs).filter
      (fun c => decide (c.source = resolve p)) :=
    List.mem_filter.mpr ⟨hc, by simp [hsrc]⟩
  rw [hmain] at this
  exact this

theorem C8_upsert_witness :
    (⟨"p_0", "new", "p"⟩ : Chunk) ∈
      (["new"].enum.map (fun ic =>
        ({ id := id "p" ++ "_" ++ toString ic.1, content := ic.2, source := id "p" } : Chunk))) :=
  (C8_upsert_in_place id [⟨"p_0", "old", "p"⟩] "p" ["new"]).2.2
    ⟨"p_0", "new", "p"⟩ (by decide) (by decide)

theorem cleanup_saves (resolve : String → String) (fs : FS) (st : PState) :
    (cleanup_deleted_files resolve fs st).2.2
      = if (sync_and_get_deleted_files st.ledger fs).isEmpty then []
        else [(cleanup_deleted_files resolve fs st).1.ledger] := rfl

/-- C2: the deletion sync returns exactly the ledger keys that are no
longer on disk (same walk and hidden-file rule as the processing scan);
the startup cleanup removes each such path from the index and the
ledger, persists the ledger exactly once after the whole batch, and
afterwards neither the ledger nor the index references the path. -/
theorem C2_deletion_sync (resolve : String → String) (fs : FS) (st : PState) :
    (∀ p, p ∈ (cleanup_deleted_files resolve fs st).2.1 ↔
        p ∈ st.ledger.map Prod.fst ∧ p ∉ current_files fs)
    ∧ (∀ p ∈ (cleanup_deleted_files resolve fs st).2.1,
        lookupL p (cleanup_deleted_files resolve fs st).1.ledger = none
        ∧ ∀ c ∈ (cleanup_deleted_files resolve fs st).1.index, c.source ≠ resolve p)
    ∧ ((cleanup_deleted_files resolve fs st).2.1 ≠ [] →
        (cleanup_deleted_files resolve fs st).2.2
          = [(cleanup_deleted_files resolve fs st).1.ledger]) := by
  refine ⟨?_, ?_, ?_⟩
  · intro p
    rw [cleanup_del]
    exact mem_sync st.ledger fs p
  · intro p hp
    rw [cleanup_del] at hp
    constructor
    · rw [cleanup_ledger, lookupL_foldl_remove]
      simp [hp]
    · intro c hc
      rw [cleanup_index] at hc
      exact (mem_foldl_remove_document resolve _ _ c hc).2 p hp
  · intro hne
    rw [cleanup_del] at hne
    rw [cleanup_saves]
    cases h : sync_and_get_deleted_files st.ledger fs with
    | nil => exact absurd h hne
    | cons a t => simp [h]

theorem C2_deletion_sync_witness :
    ("x" ∈ (cleanup_deleted_files id [] ⟨[("x", "s")], [⟨"x_0", "c", "x"⟩]⟩).2.1)
    ∧ lookupL "x" (cleanup_deleted_files id [] ⟨[("x", "s")], [⟨"x_0", "c", "x"⟩]⟩).1.ledger = none
    ∧ ((cleanup_deleted_files id [] ⟨[("x", "s")], [⟨"x_0", "c", "x"⟩]⟩).2.1 ≠ [] →
        (cleanup_deleted_files id [] ⟨[("x", "s")], [⟨"x_0", "c", "x"⟩]⟩).2.2
          = [(cleanup_deleted_files id [] ⟨[("x", "s")], [⟨"x_0", "c", "x"⟩]⟩).1.ledger]) :=
  ⟨by decide,
   ((C2_deletion_sync id [] ⟨[("x", "s")], [⟨"x_0", "c", "x"⟩]⟩).2.1 "x" (by decide)).1,
   (C2_deletion_sync id [] ⟨[("x", "s")], [⟨"x_0", "c", "x"⟩]⟩).2.2⟩

/-- C5: for a file of at least 1 MiB, a content change confined to the
bytes strictly between the first and last 64 KiB that preserves size and
mtime yields the identical fingerprint, and the path then does not
appear in getFilesToProcess when the ledger holds the old fingerprint. -/
theorem C5_middle_edit_not_detected (hash : List Nat → String) (mt : Nat)
    (a m m2 b : List Nat)
    (ha : a.length = 65536) (hb : b.length = 65536) (hm : m.length = m2.length)
    (hsize : 1048576 ≤ (a ++ m ++ b).length) :
    sigOf hash ⟨mt, a ++ m ++ b, true⟩ = sigOf hash ⟨mt, a ++ m2 ++ b, true⟩
    ∧ ∀ (ledger : Ledger) (fs : FS) (p : String),
        lookupL p ledger = some (sigOf hash ⟨mt, a ++ m ++ b, true⟩) →
        (∀ e ∈ fs, e.file.readable = true) →
        (∀ e ∈ fs, Entry.path e = p → e.file = ⟨mt, a ++ m2 ++ b, true⟩) →
        ∀ l, get_files_to_process hash ledger fs = .ok l → p ∉ l := by
  have hlen : (a ++ m ++ b).length = (a ++ m2 ++ b).length := by
    simp [hm]
  have hsize2 : 1048576 ≤ (a ++ m2 ++ b).length := hlen ▸ hsize
  have hsig : sigOf hash ⟨mt, a ++ m ++ b, true⟩ = sigOf hash ⟨mt, a ++ m2 ++ b, true⟩ := by
    have htake : ∀ x : List Nat, x.length = m.length →
        (a ++ x ++ b).take 65536 = a := by
      intro x _
      rw [List.append_assoc]
      exact List.take_left' ha
    have hdrop : ∀ x : List Nat, x.length = m.length →
        (a ++ x ++ b).drop ((a ++ x ++ b).length - 65536) = b := by
      intro x hx
      have h1 : (a ++ x ++ b).length - 65536 = (a ++ x).length := by
        simp only [List.length_append, hb]
        omega
      rw [h1]
      exact List.drop_left (a ++ x) b
    unfold sigOf sigBytes
    simp only
    rw [if_neg (not_lt.mpr hsize), if_neg (not_lt.mpr hsize2),
        htake m rfl, htake m2 hm.symm, hdrop m rfl, hdrop m2 hm.symm, hlen]
  refine ⟨hsig, ?_⟩
  intro ledger fs p hlk hr hdisk l hl
  rw [get_files_ok hash ledger fs hr] at hl
  have hleq : l = changedPaths hash ledger fs := by
    injection hl with h
    exact h.symm
  subst hleq
  intro hp
  obtain ⟨e, he, _, hch, hpe⟩ := (mem_changedPaths hash ledger fs p).mp hp
  have hfe : e.file = ⟨mt, a ++ m2 ++ b, true⟩ := hdisk e he hpe
  rw [changed_iff] at hch
  apply hch
  rw [hpe, hlk, hfe, hsig]

theorem C5_middle_edit_witness :
    (List.replicate 65536 (0 : Nat)).length = 65536
    ∧ (List.replicate 1966080 (0 : Nat)).length = (1 :: List.replicate 1966079 (0 : Nat)).length
    ∧ 1048576 ≤ (List.replicate 65536 (0 : Nat) ++ List.replicate 1966080 (0 : Nat)
        ++ List.replicate 65536 (0 : Nat)).length
    ∧ sigOf (fun _ => "h") ⟨9, List.replicate 65536 (0 : Nat) ++ List.replicate 1966080 (0 : Nat)
          ++ List.replicate 65536 (0 : Nat), true⟩
      = sigOf (fun _ => "h") ⟨9, List.replicate 65536 (0 : Nat)
          ++ (1 :: List.replicate 1966079 (0 : Nat)) ++ List.replicate 65536 (0 : Nat), true⟩ :=
  ⟨List.length_replicate 65536 0,
   by rw [List.length_cons, List.length_replicate, List.length_replicate],
   by
     simp only [List.length_append, List.length_replicate]
     omega,
   (C5_middle_edit_not_detected (fun _ => "h") 9 (List.replicate 65536 0)
     (List.replicate 1966080 0) (1 :: List.replicate 1966079 0) (List.replicate 65536 0)
     (List.length_replicate 65536 0) (List.length_replicate 65536 0)
     (by rw [List.length_cons, List.length_replicate, List.length_replicate])
     (by
       simp only [List.length_append, List.length_replicate]
       omega)).1⟩

theorem reconcile_eq (hash : List Nat → String) (extract : String → File → String)
    (split : String → List String) (resolve : String → String) (fs : FS) (st : PState)
    (hr : ∀ e ∈ fs, e.file.readable = true) :
    reconcile hash extract split resolve fs st
      = .ok ((process_file_batch hash extract split resolve fs
            (cleanup_deleted_files resolve fs st).1
            (changedPaths hash (cleanup_deleted_files resolve fs st).1.ledger fs)).1,
          (sync_and_get_deleted_files st.ledger fs).length
            + (process_file_batch hash extract split resolve fs
                (cleanup_deleted_files resolve fs st).1
                (changedPaths hash (cleanup_deleted_files resolve fs st).1.ledger fs)).2) := by
  have hscan := get_files_ok hash (cleanup_deleted_files resolve fs st).1.ledger fs hr
  simp [reconcile, process_changed_files_only, hscan, cleanup_del]

/-- C3: running the startup reconciliation (deletion sync followed by
processing of changed files) twice with no filesystem change in between
performs zero vector-index mutations on the second run -- and in fact
leaves the state fixed. -/
theorem C3_reconcile_idempotent (hash : List Nat → String) (extract : String → File → String)
    (split : String → List String) (resolve : String → String) (fs : FS) (st0 : PState)
    (hr : ∀ e ∈ fs, e.file.readable = true)
    (hnd : (fs.map Entry.path).Nodup) :
    ∃ st1 n1, reconcile hash extract split resolve fs st0 = .ok (st1, n1)
      ∧ reconcile hash extract split resolve fs st1 = .ok (st1, 0) := by
  set stA := (cleanup_deleted_files resolve fs st0).1 with hstA
  set F1 := changedPaths hash stA.ledger fs with hF1
  set stB := (process_file_batch hash extract split resolve fs stA F1).1 with hstB
  have hF1nd : F1.Nodup := changedPaths_nodup hash stA.ledger fs hnd
  have hkey1 : ∀ e ∈ fs, startsWithDot e.name = false → extract (Entry.path e) e.file ≠ "" →
      lookupL (Entry.path e) stB.ledger = some (sigOf hash e.file) := by
    intro e he hh hx
    by_cases hmem : Entry.path e ∈ F1
    · exact batch_marked hash extract split resolve fs F1 stA (Entry.path e) e hF1nd hmem
        (find_entry fs e hnd he) (hr e he) hx
    · have hch : is_file_changed stA.ledger (Entry.path e) (sigOf hash e.file) = false := by
        by_contra hcc
        rw [Bool.not_eq_false] at hcc
        exact hmem ((mem_changedPaths hash stA.ledger fs (Entry.path e)).mpr
          ⟨e, he, hh, hcc, rfl⟩)
      have hlkA := not_changed_lookup stA.ledger (Entry.path e) (sigOf hash e.file) hch
      rw [hstB, batch_ledger_ne hash extract split resolve fs F1 stA (Entry.path e) hmem]
      exact hlkA
  have hkey2 : ∀ r ∈ stB.ledger, r.1 ∈ current_files fs := by
    intro r hrr
    rw [hstB] at hrr
    rcases batch_mem_ledger hash extract split resolve fs F1 stA r hrr with h1 | h1
    · rw [hstA, cleanup_ledger] at h1
      obtain ⟨h0, hnotdel⟩ := mem_foldl_remove _ _ r h1
      by_contra hnot
      exact hnotdel ((mem_sync st0.ledger fs r.1).mpr ⟨List.mem_map.mpr ⟨r, h0, rfl⟩, hnot⟩)
    · exact changedPaths_subset_current hash stA.ledger fs r.1 h1
  have hdel2 : sync_and_get_deleted_files stB.ledger fs = [] := sync_nil stB.ledger fs hkey2
  have hclean2 : (cleanup_deleted_files resolve fs stB).1 = stB := by
    simp [cleanup_deleted_files, hdel2]
  have hskip : ∀ p ∈ changedPaths hash stB.ledger fs, ∀ s : PState,
      process_one hash extract split resolve fs s p = (s, 0) := by
    intro p hp s
    obtain ⟨e, he, hh, hch, hpe⟩ := (mem_changedPaths hash stB.ledger fs p).mp hp
    subst hpe
    by_cases hx : extract (Entry.path e) e.file = ""
    · exact process_one_empty hash extract split resolve fs s (Entry.path e) e
        (find_entry fs e hnd he) hx
    · exact absurd (hkey1 e he hh hx) ((changed_iff stB.ledger _ _).mp hch)
  have hbatch2 : process_file_batch hash extract split resolve fs stB
      (changedPaths hash stB.ledger fs) = (stB, 0) :=
    batch_all_skip hash extract split resolve fs (changedPaths hash stB.ledger fs) stB hskip
  refine ⟨stB, (sync_and_get_deleted_files st0.ledger fs).length
      + (process_file_batch hash extract split resolve fs stA F1).2, ?_, ?_⟩
  · rw [reconcile_eq hash extract split resolve fs st0 hr]
  · rw [reconcile_eq hash extract split resolve fs stB hr, hclean2, hdel2, hbatch2]
    simp

theorem C3_reconcile_idempotent_witness :
    (∀ e ∈ ([⟨"d", "a.txt", ⟨0, [1], true⟩⟩] : FS), e.file.readable = true)
    ∧ (([⟨"d", "a.txt", ⟨0, [1], true⟩⟩] : FS).map Entry.path).Nodup
    ∧ ∃ st1 n1, reconcile (fun _ => "h") (fun _ _ => "t") (fun s => [s]) id
        [⟨"d", "a.txt", ⟨0, [1], true⟩⟩] ⟨[], []⟩ = .ok (st1, n1)
      ∧ reconcile (fun _ => "h") (fun _ _ => "t") (fun s => [s]) id
        [⟨"d", "a.txt", ⟨0, [1], true⟩⟩] st1 = .ok (st1, 0) :=
  ⟨by decide, by decide,
   C3_reconcile_idempotent (fun _ => "h") (fun _ _ => "t") (fun s => [s]) id
     [⟨"d", "a.txt", ⟨0, [1], true⟩⟩] ⟨[], []⟩ (by decide) (by decide)⟩

end LocalRag
